import Mathlib

/-!
Verification of the tree-pattern query and join engine of the Wiktionary
collection script (`src/wiktionary/collection/collect.py`).

The Python source is shallowly embedded below:
* `TreeNode` models the untyped JSON-like values the engine walks
  (JSON numbers and booleans only ever matter as "not a string" here, so a
  number is carried as an `Int` without loss for any statement in this file);
* `search_values` embeds `search_values` (lines 101-125): the Python
  `assert key not in bindings` is modelled by returning `none` (a fatal
  abort), and the non-fatal `warn(...)` calls are modelled by collecting the
  offending nodes in the `warnings` component of a `SearchOutcome`;
* `consolidate_results` embeds `consolidate_results` (lines 128-162); the
  `defaultdict` index of the Python code is an extensional optimisation: the
  bucket for a key holds exactly the position's results whose projection on
  the intersecting variables equals that key, in their original order, so the
  bucket lookup is embedded as an order-preserving `List.filter`;
* `is_valid_entry` and `search_triples` embed lines 182-205.  The two
  host-library Unicode-table functions used there (`unicodedata.combining`
  and `unicodedata.normalize('NFD', ...)`) are not re-implementable as data,
  so the embedding takes them as explicit function arguments `combining` and
  `nfd`; everything else (regex replacements, the `ja` parenthesis rule, the
  Latin character class) is embedded concretely.

Python dictionaries are embedded as insertion-ordered association lists with
the exact `{**a, **b}` override semantics (`dictInsert`, `dictMerge`), and
`str.split('/')` and `sorted` on strings are embedded character-wise
(`split_pattern`, `sortStrings`) because the host's string primitives match
Python's for the code-point strings involved.
-/

namespace WiktCollect

/-- Untyped tree value: the JSON-like document model the engine walks
(`Object` / `List` / scalar, per the input format). -/
inductive TreeNode where
  | str (s : String)
  | num (n : Int)
  | bool (b : Bool)
  | null
  | list (items : List TreeNode)
  | obj (fields : List (String × TreeNode))

/-- `Bindings = dict[str, int]` (line 62): a Python dict embedded as an
insertion-ordered association list with unique keys. -/
abbrev Bindings := List (String × Nat)

/-- `SearchResults = list[tuple[str, Bindings]]` (line 64). -/
abbrev SearchResults := List (String × Bindings)

/-- `ConsolidatedResult = tuple[str, ...]` (line 65). -/
abbrev ConsolidatedResult := List String

/-- `ConsolidatedResults = list[ConsolidatedResult]` (line 66). -/
abbrev ConsolidatedResults := List ConsolidatedResult

/-- `Entry = tuple[str, str, str]` (line 50): language, word,
IPA/romanization. -/
abbrev Entry := String × String × String

/-- `SearchPattern = str` (line 54). -/
abbrev SearchPattern := String

/-- Keys of a Python dict, in insertion order. -/
def keysOf (b : Bindings) : List String := b.map Prod.fst

/-- Python `bindings[key]` lookup, totalised to an `Option`. -/
def dictFind (b : Bindings) (k : String) : Option Nat :=
  (b.find? (fun p => p.1 == k)).map Prod.snd

/-- Python `{**b, k: v}`: override the value in place if `k` is already a
key, otherwise append the new entry at the end (dict insertion order). -/
def dictInsert (b : Bindings) (k : String) (v : Nat) : Bindings :=
  if b.any (fun p => p.1 == k) then b.map (fun p => if p.1 == k then (k, v) else p)
  else b ++ [(k, v)]

/-- Python `{**a, **b}`: entries of `b` inserted into `a` left to right. -/
def dictMerge (a b : Bindings) : Bindings :=
  b.foldl (fun acc p => dictInsert acc p.1 p.2) a

/-- Python `node[key]` for `key in node` on a dict node, totalised. -/
def lookupField (fields : List (String × TreeNode)) (key : String) : Option TreeNode :=
  (fields.find? (fun p => p.1 == key)).map Prod.snd

/-- Helper for `split_pattern`: accumulate the current (reversed) chunk. -/
def splitAux : List Char → List Char → List String
  | [], acc => [String.mk acc.reverse]
  | c :: rest, acc =>
    if c == '/' then String.mk acc.reverse :: splitAux rest []
    else splitAux rest (c :: acc)

/-- Python `pattern.split('/')` with `SEARCH_PATTERN_DELIMITER = '/'`
(lines 48, 125): `''.split('/') = ['']`, `'a//b'.split('/') = ['a','','b']`. -/
def split_pattern (pattern : String) : List String := splitAux pattern.toList []

/-- `is_variable_name` (lines 97-98): `len(text) == 1 and text.isupper()`.
For a single character Python `isupper` asks whether the character is an
uppercase letter; the repository's patterns use ASCII letters, where this is
`Char.isUpper`. -/
def is_variable_name (text : String) : Bool :=
  text.length == 1 && text.toList.all (fun c => c.isUpper)

/-- Is the node Python `None`? -/
def TreeNode.isNull : TreeNode → Bool
  | .null => true
  | _ => false

/-- Outcome of one evaluation of `search_recursively`: the returned results
plus the nodes complained about by the non-fatal `warn(...)` call
(line 121), in traversal order. -/
structure SearchOutcome where
  results : SearchResults
  warnings : List TreeNode

/-- The list comprehension of lines 108-110: run `f` on each element of a
`List` node together with its index (`enumerate`), concatenating results and
warnings; a fatal abort (`none`) in any branch aborts the whole traversal. -/
def searchItems (f : Nat → TreeNode → Option SearchOutcome) :
    Nat → List TreeNode → Option SearchOutcome
  | _, [] => some ⟨[], []⟩
  | i, item :: rest =>
    match f i item, searchItems f (i + 1) rest with
    | some o₁, some o₂ => some ⟨o₁.results ++ o₂.results, o₁.warnings ++ o₂.warnings⟩
    | _, _ => none

/-- `search_recursively` (lines 102-123).  `none` models the fatal
`assert key not in bindings` (line 106); the assert is checked before the
node's type, exactly as in the source. -/
def searchRec (sin : Bool) : List String → TreeNode → Bindings → Option SearchOutcome
  | [], node, bindings =>
    match node with
    | .str s => some ⟨[(s, bindings)], []⟩
    | node => some ⟨[], if sin && node.isNull then [] else [node]⟩
  | key :: tail, node, bindings =>
    if is_variable_name key then
      if (keysOf bindings).contains key then none
      else
        match node with
        | .list items =>
            searchItems (fun i item => searchRec sin tail item (dictInsert bindings key i)) 0 items
        | _ => some ⟨[], []⟩
    else
      match node with
      | .obj fields =>
        match lookupField fields key with
        | some child => searchRec sin tail child bindings
        | none => some ⟨[], []⟩
      | _ => some ⟨[], []⟩

/-- `search_values` (lines 101-125): split the pattern on `/` and recurse
from the root with an empty environment. -/
def search_values (pattern : SearchPattern) (data : TreeNode)
    (silently_ignore_none : Bool) : Option SearchOutcome :=
  searchRec silently_ignore_none (split_pattern pattern) data []

/-- Code-point comparison of strings, as Python `<` on `str`. -/
def charListLe : List Char → List Char → Bool
  | [], _ => true
  | _ :: _, [] => false
  | a :: as, b :: bs =>
    if a.toNat < b.toNat then true
    else if b.toNat < a.toNat then false
    else charListLe as bs

/-- Insert into a run of `sortStrings`. -/
def insertSorted (s : String) : List String → List String
  | [] => [s]
  | t :: ts => if charListLe s.toList t.toList then s :: t :: ts else t :: insertSorted s ts

/-- Python `sorted` on a list of strings (insertion sort; the inputs it is
applied to below are duplicate-free, where any correct sort agrees). -/
def sortStrings (l : List String) : List String := l.foldr insertSorted []

/-- `extract_values` (lines 135-136): the tuple of the bindings' values of
`variables`, in order.  Python raises `KeyError` on a missing variable; at
every call site of the source the variables are keys of the dict, and the
embedding totalises the lookup with a default of `0`. -/
def extract_values (bindings : Bindings) (vars : List String) : List Nat :=
  vars.map (fun v => (dictFind bindings v).getD 0)

/-- Line 141: `set(bindings.keys())` of the FIRST result of a position,
via the `(_, bindings), *_` destructuring of the source. -/
def headVars (rs : SearchResults) : List String :=
  match rs with
  | [] => []
  | (_, b) :: _ => keysOf b

/-- The loop of lines 138-150, keeping only what the recursion needs: for
each position, `sorted(cumulative.intersection(position_variables))`
(line 142).  `cumulative` is a Python set, so the intersection is
deduplicated and then sorted into a canonical order. -/
def intersectionsAux : List SearchResults → List String → List (List String)
  | [], _ => []
  | rs :: rest, cumulative =>
    sortStrings ((cumulative.filter (fun k => (headVars rs).contains k)).dedup)
      :: intersectionsAux rest (cumulative ++ headVars rs)

/-- `consolidate_recursively` (lines 154-159).  The `defaultdict` bucket
`indices[position][extract_values(bindings, intersections[position])]`
holds exactly the position's results whose projection equals the looked-up
key, in their original order, which is the `List.filter` below. -/
def consolidate_recursively :
    List (SearchResults × List String) → ConsolidatedResult → Bindings → ConsolidatedResults
  | [], current, _ => [current]
  | (rs, inter) :: rest, current, bindings =>
    (rs.filter (fun r => extract_values r.2 inter == extract_values bindings inter)).flatMap
      (fun r => consolidate_recursively rest (current ++ [r.1]) (dictMerge bindings r.2))

/-- `consolidate_results` (lines 128-162).  `if not all(results): return []`
is the `isEmpty` guard; with no input positions the guard passes vacuously
and the recursion immediately emits the empty tuple. -/
def consolidate_results (results : List SearchResults) : ConsolidatedResults :=
  if results.any (fun rs => rs.isEmpty) then []
  else consolidate_recursively (results.zip (intersectionsAux results [])) [] []

/-- Is the node a string scalar? -/
def TreeNode.isString : TreeNode → Bool
  | .str _ => true
  | _ => false

/-- Is the node a `List`? -/
def TreeNode.isList : TreeNode → Bool
  | .list _ => true
  | _ => false

/-- The intersecting-variable list `consolidate_results` computes for the
second of two positions: the shared variables of the two positions' first
binding environments, deduplicated and sorted (line 142). -/
def pairInter (A B : SearchResults) : List String :=
  sortStrings (((headVars A).filter (fun k => (headVars B).contains k)).dedup)

/-- `MAX_NON_COMBINING_LENGTH = 20` (line 17). -/
def MAX_NON_COMBINING_LENGTH : Nat := 20

/-- Python whitespace: the exact set of code points matched by the regex
`\s` and stripped by `str.strip()` on the host (`str.isspace`; the three
agree, verified by enumeration over all code points): ASCII whitespace,
the information separators U+001C-001F, NEL, NBSP, Ogham space mark, the
U+2000-200A spaces, the line and paragraph separators, narrow NBSP,
medium mathematical space and the ideographic space. -/
def pyIsSpace (c : Char) : Bool :=
  c == ' ' || ('\x09' ≤ c && c ≤ '\x0d') || ('\x1c' ≤ c && c ≤ '\x1f') ||
  c == '\x85' || c == '\xa0' || c == '\u1680' ||
  ('\u2000' ≤ c && c ≤ '\u200a') || c == '\u2028' || c == '\u2029' ||
  c == '\u202f' || c == '\u205f' || c == '\u3000'

/-- The left-to-right / right-to-left marks stripped at the word's edges
by `NORMALIZATION_REPLACEMENTS` (lines 30-36). -/
def isDirectionMark (c : Char) : Bool := c == '\u200e' || c == '\u200f'

/-- The `\s+ -> ' '` replacement of line 35: every maximal run of
whitespace characters becomes one space. -/
def collapseSpaces : List Char → List Char
  | [] => []
  | [c] => if pyIsSpace c then [' '] else [c]
  | c :: d :: rest =>
    if pyIsSpace c && pyIsSpace d then collapseSpaces (d :: rest)
    else (if pyIsSpace c then ' ' else c) :: collapseSpaces (d :: rest)

/-- The replacement of line 33 (trailing direction marks to the empty
string): without
MULTILINE, `$` matches at the end of the string and also just before a
newline that ends the string, so the substitution deletes the maximal run
of direction marks at the very end or, when the string ends in a single
final newline, the maximal run immediately before that newline. -/
def stripTrailingMarks (l : List Char) : List Char :=
  match l.reverse with
  | '\n' :: rest => ('\n' :: rest.dropWhile isDirectionMark).reverse
  | rev => (rev.dropWhile isDirectionMark).reverse

/-- `normalize` (lines 165-169) with the host's `unicodedata.normalize('NFD',.)`
step abstracted as the function argument `nfd`: NFD first, then strip the
direction marks at either end (the trailing pattern also matching before a
final newline), collapse whitespace runs, and `strip()`. -/
def normalize (nfd : String → String) (text : String) : String :=
  let cs := (nfd text).toList
  let cs := cs.dropWhile isDirectionMark
  let cs := stripTrailingMarks cs
  let cs := collapseSpaces cs
  String.mk ((cs.dropWhile pyIsSpace).reverse.dropWhile pyIsSpace).reverse

/-- For the regex `' ?\([^)]*\)'`: given the characters after an opening
parenthesis, the remainder after the first `)` if there is one. -/
def parenRemainder : List Char → Option (List Char)
  | [] => none
  | ')' :: rest => some rest
  | _ :: rest => parenRemainder rest

/-- Fuelled scan implementing `re.sub(r' ?\([^)]*\)', '', word)`: at each
position try to match an optional space, `(`, a shortest run without `)`,
then `)`; a match is deleted and scanning resumes after it.  Every step
consumes at least one input character, so `length + 1` fuel always
suffices. -/
def removeParenAux : Nat → List Char → List Char
  | 0, l => l
  | fuel + 1, l =>
    match l with
    | [] => []
    | ' ' :: '(' :: rest =>
      match parenRemainder rest with
      | some rem => removeParenAux fuel rem
      | none => ' ' :: removeParenAux fuel ('(' :: rest)
    | '(' :: rest =>
      match parenRemainder rest with
      | some rem => removeParenAux fuel rem
      | none => '(' :: removeParenAux fuel rest
    | c :: rest => c :: removeParenAux fuel rest

/-- `re.sub(r' ?\([^)]*\)', '', word)`: the single extra normalization rule
of `EXTRA_WORD_NORMALIZATION_RULES` (lines 42-46). -/
def removeParenGroups (l : List Char) : List Char := removeParenAux (l.length + 1) l

/-- `extra_normalize_word` (lines 172-175): only the `'ja'` rule exists. -/
def extra_normalize_word (word : String) (language : String) : String :=
  if language == "ja" then String.mk (removeParenGroups word.toList) else word

/-- `count_non_combining_characters` (lines 178-179), over the host's
Unicode combining-class table `combining` (0 means non-combining). -/
def count_non_combining_characters (combining : Char → Nat) (text : String) : Nat :=
  (text.toList.filter (fun c => combining c == 0)).length

/-- A single character matching `LATIN_PATTERN = [a-z -]` with IGNORECASE
(line 38).  The host's case-insensitive matching accepts, besides the
ASCII letters, the space and the hyphen, exactly the characters whose
simple lowercase mapping or case-folding equivalence lands in `a-z`:
dotted I with dot above (U+0130), dotless i (U+0131), long s (U+017F) and
the Kelvin sign (U+212A) — the full match set, verified by enumerating
every code point against the host's regex engine. -/
def isLatinChar (c : Char) : Bool :=
  ('a' ≤ c && c ≤ 'z') || ('A' ≤ c && c ≤ 'Z') || c == ' ' || c == '-' ||
  c == '\u0130' || c == '\u0131' || c == '\u017f' || c == '\u212a'

/-- `is_valid_entry` (lines 182-187): all three components truthy
(non-empty), and for non-IPA extraction additionally the length bound on
word and romanization and the rejection of words made only of combining
marks and Latin-range characters. -/
def is_valid_entry (combining : Char → Nat) (entry : Entry) (is_ipa : Bool) : Bool :=
  (entry.1 != "" && entry.2.1 != "" && entry.2.2 != "") &&
    (is_ipa ||
      (decide (count_non_combining_characters combining entry.2.1 ≤ MAX_NON_COMBINING_LENGTH) &&
       decide (count_non_combining_characters combining entry.2.2 ≤ MAX_NON_COMBINING_LENGTH) &&
       !(entry.2.1.toList.all (fun c => combining c != 0 || isLatinChar c))))

/-- `SearchPatterns` (lines 55-60): the language / word / romanization
pattern triple plus the equality conditions of one extraction rule. -/
structure SearchPatterns where
  language : SearchPattern
  word : SearchPattern
  romanization : SearchPattern
  conditions : List (SearchPattern × String)

/-- Lines 192-193: evaluate each condition pattern and keep only the
results whose value equals the required literal; a fatal abort in any
evaluation aborts the rule. -/
def condition_results (conditions : List (SearchPattern × String)) (data : TreeNode) :
    Option (List SearchResults) :=
  conditions.mapM (fun cond =>
    (search_values cond.1 data false).map (fun out =>
      out.results.filter (fun r => r.1 == cond.2)))

/-- Lines 195-201: the argument of the join — the filtered condition result
sets followed by the language (absent values silently ignored), word and
romanization result sets — handed to `consolidate_results`. -/
def consolidated_tuples (patterns : SearchPatterns) (data : TreeNode) :
    Option ConsolidatedResults := do
  let conds ← condition_results patterns.conditions data
  let langs ← search_values patterns.language data true
  let words ← search_values patterns.word data false
  let roms ← search_values patterns.romanization data false
  pure (consolidate_results (conds ++ [langs.results, words.results, roms.results]))

/-- Line 203: the candidate entry built from the last three tuple
components — the language as-is, the word and romanization normalized. -/
def mk_entry (nfd : String → String) (language word romanization : String) : Entry :=
  (language, extra_normalize_word (normalize nfd word) language, normalize nfd romanization)

/-- `search_triples` (lines 190-205): consolidate, destructure each tuple
as `*_, language, word, romanization` (a tuple of fewer than three
components would raise, modelled by `none`), and keep the entries passing
`is_valid_entry`. -/
def search_triples (combining : Char → Nat) (nfd : String → String)
    (patterns : SearchPatterns) (data : TreeNode) (is_ipa : Bool) :
    Option (List Entry) := do
  let tuples ← consolidated_tuples patterns data
  let triples ← tuples.mapM (fun tuple =>
    match tuple.reverse with
    | romanization :: word :: language :: _ => some (language, word, romanization)
    | _ => none)
  pure (triples.filterMap (fun t =>
    let entry := mk_entry nfd t.1 t.2.1 t.2.2
    if is_valid_entry combining entry is_ipa then some entry else none))

/-- The body of the comprehension of lines 194-205 for one consolidated
tuple: destructure as `*_, language, word, romanization`, build the
candidate entry and keep it when it is valid. -/
def entry_of_tuple (combining : Char → Nat) (nfd : String → String) (is_ipa : Bool)
    (tuple : ConsolidatedResult) : Option Entry :=
  match tuple.reverse with
  | romanization :: word :: language :: _ =>
    if is_valid_entry combining (mk_entry nfd language word romanization) is_ipa then
      some (mk_entry nfd language word romanization)
    else none
  | _ => none

/-! Helper lemmas shared by the claim theorems. -/

/-- An empty input position makes the eager guard of `consolidate_results`
fire. -/
theorem consolidate_empty_input (results : List SearchResults)
    (h : ([] : SearchResults) ∈ results) : consolidate_results results = [] := by
  unfold consolidate_results
  rw [if_pos]
  exact List.any_eq_true.mpr ⟨[], h, rfl⟩

/-- Inserting a binding makes its key a key of the dictionary. -/
theorem mem_keysOf_dictInsert (b : Bindings) (k : String) (v : Nat) :
    k ∈ keysOf (dictInsert b k v) := by
  unfold dictInsert
  by_cases h : b.any (fun p => p.1 == k) = true
  · rw [if_pos h]
    obtain ⟨p, hp, hpk⟩ := List.any_eq_true.mp h
    simp only [keysOf, List.map_map, List.mem_map]
    refine ⟨p, hp, ?_⟩
    simp [beq_iff_eq.mp hpk]
  · rw [if_neg h]
    simp [keysOf]

/-! Claim theorems. -/

/-- C10: called with zero input result sequences, `consolidate_results`
returns the one-element sequence holding the empty tuple (the identity of
the join), not the empty sequence. -/
theorem consolidate_no_inputs_yields_empty_tuple :
    consolidate_results [] = [[]] := rfl

/-- C4: if at least one of the input sequences is empty, `consolidate_results`
returns the empty sequence, regardless of the other inputs. -/
theorem consolidate_of_empty_input (results : List SearchResults)
    (h : ([] : SearchResults) ∈ results) : consolidate_results results = [] :=
  consolidate_empty_input results h

/-- C4 witness: one empty input among two kills the whole join. -/
theorem consolidate_of_empty_input_witness :
    (([] : SearchResults) ∈ [[(("a", ([] : Bindings)) : String × Bindings)], ([] : SearchResults)]) ∧
      consolidate_results [[("a", [])], []] = [] :=
  ⟨by decide, consolidate_of_empty_input [[("a", [])], []] (by decide)⟩

/-- C7: when the segment list is exhausted at a non-string node, the branch
contributes no result; it is dropped with no warning when the node is null
and the caller opted into silently ignoring absent values, and dropped with
one non-fatal warning otherwise. -/
theorem exhausted_at_non_string_drops_branch (sin : Bool) (node : TreeNode) (b : Bindings)
    (h : node.isString = false) :
    searchRec sin [] node b =
      some ⟨[], if sin && node.isNull then [] else [node]⟩ := by
  cases node <;> first
    | rfl
    | exact absurd h (by simp [TreeNode.isString])

/-- C7 witness: a numeric leaf is dropped with a warning. -/
theorem exhausted_at_non_string_drops_branch_witness :
    (TreeNode.num 3).isString = false ∧
      searchRec false [] (TreeNode.num 3) [] = some ⟨[], [TreeNode.num 3]⟩ :=
  ⟨rfl, exhausted_at_non_string_drops_branch false (TreeNode.num 3) [] rfl⟩

/-- C3 counterexample: the pattern `N/N` repeats the variable `N` in two
segments, yet evaluating it on the document `null` does not abort — it
returns the empty result sequence, because the second occurrence of the
variable is never reached when the node at the first occurrence is not a
list.  Whether evaluation aborts therefore depends on the document. -/
theorem duplicate_variable_not_always_fatal :
    (split_pattern "N/N" = ["N", "N"] ∧ is_variable_name "N" = true) ∧
      search_values "N/N" TreeNode.null false = some ⟨[], []⟩ :=
  ⟨⟨rfl, rfl⟩, rfl⟩

/-- C3 (amended): evaluation aborts with a fatal error exactly when the
traversal reaches a variable segment whose name is already bound,
regardless of the node there; in particular a pattern starting with the
duplicated segments `V/V` aborts on every tree whose root is a non-empty
list, while on a tree whose node at the first occurrence is not a list the
duplicate is never reached and evaluation returns normally — so whether a
duplicated variable aborts the run depends on the content of the
document. -/
theorem duplicate_variable_fatal_when_reached (sin : Bool) (V : String)
    (hV : is_variable_name V = true) :
    (∀ (tail : List String) (node : TreeNode) (b : Bindings),
        V ∈ keysOf b → searchRec sin (V :: tail) node b = none) ∧
    (∀ (x : TreeNode) (xs : List TreeNode) (b : Bindings),
        V ∉ keysOf b → searchRec sin [V, V] (TreeNode.list (x :: xs)) b = none) ∧
    (∀ (tail : List String) (node : TreeNode),
        node.isList = false → searchRec sin (V :: tail) node [] = some ⟨[], []⟩) := by
  have habort : ∀ (tail : List String) (node : TreeNode) (b : Bindings),
      V ∈ keysOf b → searchRec sin (V :: tail) node b = none := by
    intro tail node b hmem
    simp [searchRec, hV, hmem]
  refine ⟨habort, ?_, ?_⟩
  · intro x xs b hnotmem
    have hbound : V ∈ keysOf (dictInsert b V 0) := mem_keysOf_dictInsert b V 0
    simp [searchRec, hV, hnotmem, searchItems, hbound]
  · intro tail node hnl
    cases node <;> simp_all [searchRec, hV, keysOf, TreeNode.isList]

/-- C3 (amended) witness: on a non-empty list the duplicated pattern
`N/N` aborts. -/
theorem duplicate_variable_fatal_when_reached_witness :
    is_variable_name "N" = true ∧
      searchRec false ["N", "N"] (TreeNode.list [TreeNode.str "a"]) [] = none :=
  ⟨rfl, (duplicate_variable_fatal_when_reached false "N" rfl).2.1
    (TreeNode.str "a") [] [] (by decide)⟩

/-- Core of C6: on a variable-free segment list the traversal never
branches, so it returns (without a fatal abort) at most one result, whose
environment is the one it started with. -/
theorem searchRec_no_vars (sin : Bool) (path : List String)
    (hv : ∀ seg ∈ path, is_variable_name seg = false) :
    ∀ (node : TreeNode) (b : Bindings), ∃ out, searchRec sin path node b = some out ∧
      out.results.length ≤ 1 ∧ ∀ r ∈ out.results, r.2 = b := by
  induction path with
  | nil =>
    intro node b
    cases node with
    | str s => exact ⟨⟨[(s, b)], []⟩, rfl, by simp, by simp⟩
    | num n => exact ⟨_, rfl, by simp, by simp⟩
    | bool v => exact ⟨_, rfl, by simp, by simp⟩
    | null => exact ⟨_, rfl, by simp, by simp⟩
    | list items => exact ⟨_, rfl, by simp, by simp⟩
    | obj fields => exact ⟨_, rfl, by simp, by simp⟩
  | cons key tail ih =>
    intro node b
    have hkey : is_variable_name key = false := hv key (by simp)
    have htail : ∀ seg ∈ tail, is_variable_name seg = false :=
      fun seg hs => hv seg (by simp [hs])
    cases node with
    | obj fields =>
      cases hf : lookupField fields key with
      | some child =>
        obtain ⟨out, hout, hlen, henv⟩ := ih htail child b
        exact ⟨out, by simp [searchRec, hkey, hf, hout], hlen, henv⟩
      | none => exact ⟨⟨[], []⟩, by simp [searchRec, hkey, hf], by simp, by simp⟩
    | str s => exact ⟨⟨[], []⟩, by simp [searchRec, hkey], by simp, by simp⟩
    | num n => exact ⟨⟨[], []⟩, by simp [searchRec, hkey], by simp, by simp⟩
    | bool v => exact ⟨⟨[], []⟩, by simp [searchRec, hkey], by simp, by simp⟩
    | null => exact ⟨⟨[], []⟩, by simp [searchRec, hkey], by simp, by simp⟩
    | list items => exact ⟨⟨[], []⟩, by simp [searchRec, hkey], by simp, by simp⟩

/-- C6: a pattern with no variable segments evaluates, on every tree,
to at most one `SearchResult`, and its binding environment is empty. -/
theorem no_variable_pattern_at_most_one_result (pattern : SearchPattern) (data : TreeNode)
    (sin : Bool) (hv : ∀ seg ∈ split_pattern pattern, is_variable_name seg = false) :
    ∃ out, search_values pattern data sin = some out ∧
      out.results.length ≤ 1 ∧ ∀ r ∈ out.results, r.2 = ([] : Bindings) :=
  searchRec_no_vars sin (split_pattern pattern) hv data []

/-- C6 witness: the variable-free pattern `a/b` on a small document. -/
theorem no_variable_pattern_at_most_one_result_witness :
    (∀ seg ∈ split_pattern "a/b", is_variable_name seg = false) ∧
      (∃ out, search_values "a/b" (TreeNode.obj [("a", TreeNode.obj [("b", TreeNode.str "x")])]) false
          = some out ∧ out.results.length ≤ 1 ∧ ∀ r ∈ out.results, r.2 = ([] : Bindings)) :=
  ⟨by decide, no_variable_pattern_at_most_one_result "a/b"
    (TreeNode.obj [("a", TreeNode.obj [("b", TreeNode.str "x")])]) false (by decide)⟩

/-- One step of `searchItems` when both the head evaluation and the rest
succeed. -/
theorem searchItems_cons (f : Nat → TreeNode → Option SearchOutcome) (i : Nat)
    (item : TreeNode) (rest : List TreeNode) (o₁ o₂ : SearchOutcome)
    (h1 : f i item = some o₁) (h2 : searchItems f (i + 1) rest = some o₂) :
    searchItems f i (item :: rest) =
      some ⟨o₁.results ++ o₂.results, o₁.warnings ++ o₂.warnings⟩ := by
  simp [searchItems, h1, h2]

/-- Core of C5: iterating the terminal step over the elements of a list
node keeps, per element, exactly the string elements (paired with the
binding of `V` to the element's index) and warns about each non-string
element unless it is a silently ignored null. -/
theorem searchItems_single_var (sin : Bool) (V : String) :
    ∀ (items : List TreeNode) (start : Nat),
      searchItems (fun i item => searchRec sin [] item (dictInsert [] V i)) start items =
        some ⟨(List.enumFrom start items).filterMap
                (fun p => match p.2 with | TreeNode.str s => some (s, [(V, p.1)]) | _ => none),
              items.filterMap (fun item =>
                match item with
                | TreeNode.str _ => none
                | item => if sin && item.isNull then none else some item)⟩ := by
  intro items
  induction items with
  | nil => intro start; rfl
  | cons item rest ih =>
    intro start
    cases item with
    | str s =>
      rw [searchItems_cons _ start _ rest ⟨[(s, [(V, start)])], []⟩ _ rfl (ih (start + 1))]
      simp [List.enumFrom]
    | num n =>
      rw [searchItems_cons _ start _ rest ⟨[], [TreeNode.num n]⟩ _
        (by simp [searchRec, TreeNode.isNull]) (ih (start + 1))]
      simp [List.enumFrom, TreeNode.isNull]
    | bool v =>
      rw [searchItems_cons _ start _ rest ⟨[], [TreeNode.bool v]⟩ _
        (by simp [searchRec, TreeNode.isNull]) (ih (start + 1))]
      simp [List.enumFrom, TreeNode.isNull]
    | null =>
      cases sin with
      | false =>
        rw [searchItems_cons _ start _ rest ⟨[], [TreeNode.null]⟩ _ rfl (ih (start + 1))]
        simp [List.enumFrom, TreeNode.isNull]
      | true =>
        rw [searchItems_cons _ start _ rest ⟨[], []⟩ _ rfl (ih (start + 1))]
        simp [List.enumFrom, TreeNode.isNull]
    | list l =>
      rw [searchItems_cons _ start _ rest ⟨[], [TreeNode.list l]⟩ _
        (by simp [searchRec, TreeNode.isNull]) (ih (start + 1))]
      simp [List.enumFrom, TreeNode.isNull]
    | obj fields =>
      rw [searchItems_cons _ start _ rest ⟨[], [TreeNode.obj fields]⟩ _
        (by simp [searchRec, TreeNode.isNull]) (ih (start + 1))]
      simp [List.enumFrom, TreeNode.isNull]

/-- C5 counterexample: for the list node `[null]` of length 1 and the
single-variable pattern `N`, evaluation returns 0 results, not 1 (the
non-string element is dropped, with a warning), so a `List` of length n
does not in general yield exactly n results. -/
theorem single_variable_pattern_drops_non_strings :
    search_values "N" (TreeNode.list [TreeNode.null]) false = some ⟨[], [TreeNode.null]⟩ ∧
      ([TreeNode.null] : List TreeNode).length = 1 :=
  ⟨rfl, rfl⟩

/-- C5 (amended): for a `List` node and a single-variable pattern `V`,
evaluation returns exactly one result per string element — the element
paired with the environment binding `V` to the element's index — so the
indices bound for string elements are unaffected by interleaved non-string
elements, which are dropped (warning about each one unless it is a null
and absent values are silently ignored); in particular a list whose n
elements are all strings yields exactly n results with environments
binding `V` to 0 through n-1. -/
theorem single_variable_pattern_results (pattern V : String) (items : List TreeNode)
    (sin : Bool) (hsplit : split_pattern pattern = [V]) (hV : is_variable_name V = true) :
    search_values pattern (TreeNode.list items) sin =
      some ⟨items.enum.filterMap
              (fun p => match p.2 with | TreeNode.str s => some (s, [(V, p.1)]) | _ => none),
            items.filterMap (fun item =>
              match item with
              | TreeNode.str _ => none
              | item => if sin && item.isNull then none else some item)⟩ := by
  unfold search_values
  rw [hsplit]
  have hstep : searchRec sin [V] (TreeNode.list items) [] =
      searchItems (fun i item => searchRec sin [] item (dictInsert [] V i)) 0 items := by
    rw [searchRec.eq_3, hV]
    simp [keysOf]
  rw [hstep, searchItems_single_var sin V items 0]
  simp [List.enum]

/-- C5 (amended) witness: a list with a string, a number and another
string yields the two strings with indices 0 and 2. -/
theorem single_variable_pattern_results_witness :
    (split_pattern "N" = ["N"] ∧ is_variable_name "N" = true) ∧
      search_values "N" (TreeNode.list [TreeNode.str "x", TreeNode.num 3, TreeNode.str "y"]) false
        = some ⟨[("x", [("N", 0)]), ("y", [("N", 2)])], [TreeNode.num 3]⟩ :=
  ⟨⟨rfl, rfl⟩, single_variable_pattern_results "N" "N"
    [TreeNode.str "x", TreeNode.num 3, TreeNode.str "y"] false rfl rfl⟩

/-- Flat-mapping a singleton-valued function is mapping. -/
theorem flatMap_single {α β : Type} (l : List α) (f : α → β) :
    l.flatMap (fun x => [f x]) = l.map f := by
  induction l with
  | nil => rfl
  | cons x t ih => simp [ih]

/-- Pointwise-equal functions flat-map equally. -/
theorem flatMap_congr {α β : Type} {l : List α} {f g : α → List β}
    (h : ∀ a ∈ l, f a = g a) : l.flatMap f = l.flatMap g := by
  induction l with
  | nil => rfl
  | cons x t ih =>
    simp only [List.flatMap_cons, h x (by simp)]
    rw [ih (fun a ha => h a (by simp [ha]))]

/-- A duplicate-free nonempty list of equal elements deduplicates to the
singleton. -/
theorem dedup_eq_single {v : String} :
    ∀ {l : List String}, v ∈ l → (∀ x ∈ l, x = v) → l.dedup = [v] := by
  intro l
  induction l with
  | nil => intro h _; exact absurd h (List.not_mem_nil v)
  | cons x t ih =>
    intro _ hall
    have hx : x = v := hall x (by simp)
    subst hx
    by_cases ht : x ∈ t
    · rw [List.dedup_cons_of_mem ht]
      exact ih ht (fun y hy => hall y (by simp [hy]))
    · have hte : t = [] := by
        cases t with
        | nil => rfl
        | cons y u =>
          have hy : y = x := hall y (by simp)
          exact absurd (hy ▸ List.mem_cons_self y u) ht
      subst hte
      simp

/-- Merging a dictionary with duplicate-free keys, all fresh for the
accumulator, appends its entries. -/
theorem dictMerge_append (b : Bindings) :
    ∀ (acc : Bindings), (keysOf b).Nodup → (∀ p ∈ b, p.1 ∉ keysOf acc) →
      dictMerge acc b = acc ++ b := by
  induction b with
  | nil => intro acc _ _; simp [dictMerge]
  | cons p t ih =>
    intro acc hnd hdisj
    have hp : p.1 ∉ keysOf acc := hdisj p (by simp)
    have hfresh : acc.any (fun q => q.1 == p.1) = false := by
      rw [List.any_eq_false]
      intro q hq hqe
      exact hp (List.mem_map.mpr ⟨q, hq, beq_iff_eq.mp hqe⟩)
    have hins : dictInsert acc p.1 p.2 = acc ++ [p] := by
      simp [dictInsert, hfresh]
    have hnd2 : (keysOf t).Nodup := by
      have : keysOf (p :: t) = p.1 :: keysOf t := rfl
      rw [this] at hnd
      exact hnd.of_cons
    have hhead : p.1 ∉ keysOf t := by
      have : keysOf (p :: t) = p.1 :: keysOf t := rfl
      rw [this] at hnd
      exact (List.nodup_cons.mp hnd).1
    have hdisj2 : ∀ q ∈ t, q.1 ∉ keysOf (acc ++ [p]) := by
      intro q hq hmem
      have hkeys : keysOf (acc ++ [p]) = keysOf acc ++ [p.1] := by
        simp [keysOf]
      rw [hkeys] at hmem
      rcases List.mem_append.mp hmem with hm | hm
      · exact hdisj q (by simp [hq]) hm
      · have hqp : q.1 = p.1 := by simpa using hm
        refine hhead ?_
        rw [← hqp]
        exact List.mem_map.mpr ⟨q, hq, rfl⟩
    have hstep : dictMerge acc (p :: t) = dictMerge (dictInsert acc p.1 p.2) t := rfl
    rw [hstep, hins, ih (acc ++ [p]) hnd2 hdisj2]
    simp

/-- Re-inserting all entries of a dictionary with duplicate-free keys into
an empty dictionary reproduces it. -/
theorem dictMerge_nil (b : Bindings) (hnd : (keysOf b).Nodup) : dictMerge [] b = b := by
  have := dictMerge_append b [] hnd (by intro p _; simp [keysOf])
  simpa using this

/-- A present key is found. -/
theorem dictFind_eq_some_of_mem :
    ∀ {b : Bindings} {k : String}, k ∈ keysOf b → ∃ v, dictFind b k = some v := by
  intro b
  induction b with
  | nil => intro k h; simp [keysOf] at h
  | cons p t ih =>
    intro k h
    by_cases hp : p.1 = k
    · refine ⟨p.2, ?_⟩
      rw [dictFind, List.find?_cons_of_pos t (by simp [hp])]
      rfl
    · have hk : k ∈ keysOf t := by
        have : keysOf (p :: t) = p.1 :: keysOf t := rfl
        rw [this] at h
        rcases List.mem_cons.mp h with he | ht
        · exact absurd he.symm hp
        · exact ht
      obtain ⟨v, hv⟩ := ih hk
      refine ⟨v, ?_⟩
      rw [dictFind, List.find?_cons_of_neg t (by simp [hp])]
      exact hv

/-- Generic shape of a two-position join: every first-position result is
paired with exactly the second-position results whose projection on the
computed intersecting variables matches. -/
theorem consolidate_pair (A B : SearchResults) (hA : A ≠ []) (hB : B ≠ []) :
    consolidate_results [A, B] =
      A.flatMap (fun a =>
        (B.filter (fun b =>
            extract_values b.2 (pairInter A B) ==
              extract_values (dictMerge [] a.2) (pairInter A B))).map
          (fun b => [a.1, b.1])) := by
  obtain ⟨a0, as, rfl⟩ : ∃ a0 as, A = a0 :: as := by
    cases A with
    | nil => exact absurd rfl hA
    | cons a0 as => exact ⟨a0, as, rfl⟩
  obtain ⟨b0, bs, rfl⟩ : ∃ b0 bs, B = b0 :: bs := by
    cases B with
    | nil => exact absurd rfl hB
    | cons b0 bs => exact ⟨b0, bs, rfl⟩
  have h1 : consolidate_results [a0 :: as, b0 :: bs] =
      ((a0 :: as).filter
          (fun r => extract_values r.2 [] == extract_values ([] : Bindings) [])).flatMap
        (fun r => consolidate_recursively
          [(b0 :: bs, pairInter (a0 :: as) (b0 :: bs))] ([] ++ [r.1]) (dictMerge [] r.2)) := rfl
  have hfilter : (a0 :: as).filter
      (fun r => extract_values r.2 [] == extract_values ([] : Bindings) []) = a0 :: as :=
    List.filter_eq_self.mpr (fun r _ => rfl)
  rw [h1, hfilter]
  apply flatMap_congr
  intro a _
  show ((b0 :: bs).filter (fun b =>
      extract_values b.2 (pairInter (a0 :: as) (b0 :: bs)) ==
        extract_values (dictMerge [] a.2) (pairInter (a0 :: as) (b0 :: bs)))).flatMap
      (fun b => [[a.1, b.1]]) = _
  exact flatMap_single _ _

/-- C2: with no variable shared between the two positions, the join is the
full cartesian product of the terminal values, `A` outer and `B` inner. -/
theorem consolidate_no_shared_vars (A B : SearchResults) (hA : A ≠ []) (hB : B ≠ [])
    (hdisj : ∀ a ∈ A, ∀ b ∈ B, ∀ k, k ∈ keysOf a.2 → k ∉ keysOf b.2) :
    consolidate_results [A, B] = A.flatMap (fun a => B.map (fun b => [a.1, b.1])) := by
  have hI : pairInter A B = [] := by
    obtain ⟨a0, as, rfl⟩ : ∃ a0 as, A = a0 :: as := by
      cases A with
      | nil => exact absurd rfl hA
      | cons a0 as => exact ⟨a0, as, rfl⟩
    obtain ⟨b0, bs, rfl⟩ : ∃ b0 bs, B = b0 :: bs := by
      cases B with
      | nil => exact absurd rfl hB
      | cons b0 bs => exact ⟨b0, bs, rfl⟩
    have hfe : (keysOf a0.2).filter (fun k => (keysOf b0.2).contains k) = [] := by
      rw [List.filter_eq_nil_iff]
      intro k hk hc
      exact hdisj a0 (by simp) b0 (by simp) k hk (by simpa using hc)
    show sortStrings (((keysOf a0.2).filter (fun k => (keysOf b0.2).contains k)).dedup) = []
    rw [hfe]
    rfl
  rw [consolidate_pair A B hA hB, hI]
  apply flatMap_congr
  intro a _
  have : B.filter (fun b =>
      extract_values b.2 [] == extract_values (dictMerge [] a.2) []) = B :=
    List.filter_eq_self.mpr (fun b _ => rfl)
  rw [this]

/-- C2 witness: two positions with variables `N` and `M` respectively give
the 2×2 cartesian product in nested order. -/
theorem consolidate_no_shared_vars_witness :
    ([("a", [("N", 0)]), ("b", [("N", 1)])] : SearchResults) ≠ [] ∧
      consolidate_results
        [[("a", [("N", 0)]), ("b", [("N", 1)])], [("c", [("M", 0)]), ("d", [("M", 5)])]]
        = [["a", "c"], ["a", "d"], ["b", "c"], ["b", "d"]] := by
  constructor
  · decide
  · rw [consolidate_no_shared_vars _ _ (by decide) (by decide) (by decide)]
    decide

/-- C1: when the two positions share exactly the variable `V` (bound in
every environment of both, with duplicate-free keys), the join returns
exactly the pairs of terminal values whose two bindings of `V` agree —
pairs disagreeing on `V` are never emitted. -/
theorem consolidate_shared_variable (A B : SearchResults) (V : String)
    (hA : A ≠ []) (hB : B ≠ [])
    (hAV : ∀ a ∈ A, V ∈ keysOf a.2) (hBV : ∀ b ∈ B, V ∈ keysOf b.2)
    (hshared : ∀ a ∈ A, ∀ b ∈ B, ∀ k, k ∈ keysOf a.2 → k ∈ keysOf b.2 → k = V)
    (hnd : ∀ a ∈ A, (keysOf a.2).Nodup) :
    consolidate_results [A, B] =
      A.flatMap (fun a =>
        (B.filter (fun b => dictFind b.2 V == dictFind a.2 V)).map
          (fun b => [a.1, b.1])) := by
  have hI : pairInter A B = [V] := by
    obtain ⟨a0, as, rfl⟩ : ∃ a0 as, A = a0 :: as := by
      cases A with
      | nil => exact absurd rfl hA
      | cons a0 as => exact ⟨a0, as, rfl⟩
    obtain ⟨b0, bs, rfl⟩ : ∃ b0 bs, B = b0 :: bs := by
      cases B with
      | nil => exact absurd rfl hB
      | cons b0 bs => exact ⟨b0, bs, rfl⟩
    have hVL : V ∈ (keysOf a0.2).filter (fun k => (keysOf b0.2).contains k) :=
      List.mem_filter.mpr ⟨hAV a0 (by simp), by simpa using hBV b0 (by simp)⟩
    have hall : ∀ x ∈ (keysOf a0.2).filter (fun k => (keysOf b0.2).contains k), x = V := by
      intro x hx
      obtain ⟨hx1, hx2⟩ := List.mem_filter.mp hx
      exact hshared a0 (by simp) b0 (by simp) x hx1 (by simpa using hx2)
    have hd : ((keysOf a0.2).filter (fun k => (keysOf b0.2).contains k)).dedup = [V] :=
      dedup_eq_single hVL hall
    show sortStrings (((keysOf a0.2).filter (fun k => (keysOf b0.2).contains k)).dedup) = [V]
    rw [hd]
    rfl
  rw [consolidate_pair A B hA hB, hI]
  apply flatMap_congr
  intro a ha
  have hmerge : dictMerge [] a.2 = a.2 := dictMerge_nil _ (hnd a ha)
  simp only [hmerge]
  congr 1
  apply List.filter_congr
  intro b hb
  obtain ⟨m, hm⟩ := dictFind_eq_some_of_mem (hBV b hb)
  obtain ⟨n, hn⟩ := dictFind_eq_some_of_mem (hAV a ha)
  simp only [extract_values, List.map_cons, List.map_nil, hm, hn]
  rw [Bool.eq_iff_iff]
  simp

/-- C1 witness: the spec's `cats`/`plural` example — only the
`V`-consistent pairs survive. -/
theorem consolidate_shared_variable_witness :
    ([("cats", [("N", 0)]), ("cat-s", [("N", 1)])] : SearchResults) ≠ [] ∧
      consolidate_results
        [[("cats", [("N", 0)]), ("cat-s", [("N", 1)])],
         [("plural", [("N", 0), ("M", 0)]), ("possessive", [("N", 1), ("M", 0)])]]
        = [["cats", "plural"], ["cat-s", "possessive"]] := by
  constructor
  · decide
  · rw [consolidate_shared_variable _ _ "N" (by decide) (by decide) (by decide) (by decide)
      (by decide) (by decide)]
    decide

/-- A successful `mapM` maps members to members. -/
theorem mapM_some_mem {α β : Type} (f : α → Option β) :
    ∀ {l : List α} {l2 : List β}, l.mapM f = some l2 →
      ∀ {x : α} {y : β}, x ∈ l → f x = some y → y ∈ l2 := by
  intro l
  induction l with
  | nil =>
    intro l2 _ x y hx _
    exact absurd hx (List.not_mem_nil x)
  | cons a t ih =>
    intro l2 hm x y hx hf
    rw [List.mapM_cons] at hm
    cases ha : f a with
    | none => rw [ha] at hm; simp at hm
    | some b =>
      rw [ha] at hm
      cases hmt : t.mapM f with
      | none => rw [hmt] at hm; simp at hm
      | some bs =>
        rw [hmt] at hm
        simp at hm
        rcases List.mem_cons.mp hx with hxa | hxt
        · subst hxa
          rw [hf] at ha
          rw [← hm]
          simp [Option.some.inj ha]
        · rw [← hm]
          exact List.mem_cons.mpr (Or.inr (ih hmt hxt hf))

/-- Pushing a `filterMap` through a successful `mapM`. -/
theorem filterMap_of_mapM {α β γ : Type} (f : α → Option β) (g : β → Option γ) :
    ∀ {l : List α} {l2 : List β}, l.mapM f = some l2 →
      l2.filterMap g = l.filterMap (fun x => (f x).bind g) := by
  intro l
  induction l with
  | nil =>
    intro l2 hm
    rw [List.mapM_nil] at hm
    cases hm
    rfl
  | cons a t ih =>
    intro l2 hm
    rw [List.mapM_cons] at hm
    cases ha : f a with
    | none => rw [ha] at hm; simp at hm
    | some b =>
      rw [ha] at hm
      cases hmt : t.mapM f with
      | none => rw [hmt] at hm; simp at hm
      | some bs =>
        rw [hmt] at hm
        simp at hm
        rw [← hm]
        rw [List.filterMap_cons, List.filterMap_cons]
        rw [ha]
        cases hgb : g b <;> simp [ih hmt, hgb]

/-- C9: the result set of each equality condition is filtered to the
results whose terminal value equals the required literal, and when that
filtered set is empty the whole pattern group contributes no entries for
the document. -/
theorem empty_condition_yields_no_entries (combining : Char → Nat) (nfd : String → String)
    (patterns : SearchPatterns) (data : TreeNode) (is_ipa : Bool)
    (p : SearchPattern) (required : String) (out : SearchOutcome)
    (hmem : (p, required) ∈ patterns.conditions)
    (hs : search_values p data false = some out)
    (hempty : out.results.filter (fun r => r.1 == required) = [])
    (entries : List Entry)
    (h : search_triples combining nfd patterns data is_ipa = some entries) :
    entries = [] := by
  unfold search_triples at h
  cases hct : consolidated_tuples patterns data with
  | none => rw [hct] at h; simp at h
  | some tuples =>
    rw [hct] at h
    have htup : tuples = [] := by
      unfold consolidated_tuples at hct
      cases hc : condition_results patterns.conditions data with
      | none => rw [hc] at hct; simp at hct
      | some conds =>
        rw [hc] at hct
        cases hl : search_values patterns.language data true with
        | none => rw [hl] at hct; simp at hct
        | some langs =>
          rw [hl] at hct
          cases hw : search_values patterns.word data false with
          | none => rw [hw] at hct; simp at hct
          | some words =>
            rw [hw] at hct
            cases hr : search_values patterns.romanization data false with
            | none => rw [hr] at hct; simp at hct
            | some roms =>
              rw [hr] at hct
              simp at hct
              have hemem : ([] : SearchResults) ∈ conds := by
                unfold condition_results at hc
                have hf : (search_values p data false).map
                    (fun o => o.results.filter (fun r => r.1 == required))
                      = some [] := by
                  rw [hs]
                  show some (out.results.filter (fun r => r.1 == required)) = some []
                  rw [hempty]
                exact mapM_some_mem _ hc hmem hf
              have hin : ([] : SearchResults) ∈
                  conds ++ [langs.results, words.results, roms.results] :=
                List.mem_append.mpr (Or.inl hemem)
              have hce := consolidate_empty_input _ hin
              rw [hce] at hct
              exact hct.symm
    subst htup
    have h2 : (some [] : Option (List Entry)) = some entries := h
    exact (Option.some.inj h2).symm

/-- C9 witness: a condition requiring `tag = x` on a document where `tag`
is `y` filters to the empty set, and the group yields no entries. -/
theorem empty_condition_yields_no_entries_witness :
    (("tag", "x") ∈ (SearchPatterns.mk "lang_code" "word" "word" [("tag", "x")]).conditions) ∧
      search_values "tag"
        (TreeNode.obj [("lang_code", TreeNode.str "en"), ("word", TreeNode.str "hi"),
          ("tag", TreeNode.str "y")]) false = some ⟨[("y", [])], []⟩ ∧
      (⟨[("y", [])], []⟩ : SearchOutcome).results.filter (fun r => r.1 == "x") = [] ∧
      ([] : List Entry) = [] :=
  ⟨by decide, rfl, rfl,
    empty_condition_yields_no_entries (fun _ => 0) (fun s => s)
      (SearchPatterns.mk "lang_code" "word" "word" [("tag", "x")])
      (TreeNode.obj [("lang_code", TreeNode.str "en"), ("word", TreeNode.str "hi"),
        ("tag", TreeNode.str "y")]) false
      "tag" "x" ⟨[("y", [])], []⟩ (by decide) rfl rfl [] rfl⟩

/-- C8: every emitted entry comes from a consolidated tuple via its last
three components in the order (language, word, pronunciation) — the tuple
is kept only when `is_valid_entry` holds — and validity is: all three
components non-empty, with, for non-IPA extraction only, the
non-combining-character length bound on word and pronunciation and the
requirement that some character of the word is neither a combining mark
nor a Latin-range character; IPA extraction checks only non-emptiness. -/
theorem entries_from_last_three_and_validity (combining : Char → Nat) (nfd : String → String)
    (patterns : SearchPatterns) (data : TreeNode) (is_ipa : Bool) (entries : List Entry)
    (h : search_triples combining nfd patterns data is_ipa = some entries) :
    (∃ tuples, consolidated_tuples patterns data = some tuples ∧
      entries = tuples.filterMap (entry_of_tuple combining nfd is_ipa)) ∧
    (∀ l w r, is_valid_entry combining (l, w, r) is_ipa = true ↔
      (l ≠ "" ∧ w ≠ "" ∧ r ≠ "" ∧
        (is_ipa = true ∨
          (count_non_combining_characters combining w ≤ MAX_NON_COMBINING_LENGTH ∧
           count_non_combining_characters combining r ≤ MAX_NON_COMBINING_LENGTH ∧
           ∃ c ∈ w.toList, combining c = 0 ∧ isLatinChar c = false)))) := by
  constructor
  · unfold search_triples at h
    cases hct : consolidated_tuples patterns data with
    | none => rw [hct] at h; simp at h
    | some tuples =>
      rw [hct] at h
      refine ⟨tuples, rfl, ?_⟩
      rcases Option.bind_eq_some.mp h with ⟨tuples2, h1, h2⟩
      have ht2 : tuples2 = tuples := (Option.some.inj h1).symm
      subst ht2
      rcases Option.bind_eq_some.mp h2 with ⟨triples, hmt, hsome⟩
      have hent : entries = triples.filterMap
          (fun t =>
            if is_valid_entry combining (mk_entry nfd t.1 t.2.1 t.2.2) is_ipa then
              some (mk_entry nfd t.1 t.2.1 t.2.2)
            else none) := (Option.some.inj hsome).symm
      rw [hent, filterMap_of_mapM _ _ hmt]
      apply List.filterMap_congr
      intro x _
      rcases hrev : x.reverse with _ | ⟨rom, _ | ⟨w2, _ | ⟨l2, t2⟩⟩⟩ <;>
        simp only [entry_of_tuple, hrev] <;> rfl
  · intro l w r
    simp only [is_valid_entry, Bool.and_eq_true, Bool.or_eq_true, bne_iff_ne,
      decide_eq_true_eq, Bool.not_eq_true', List.all_eq_false, not_or,
      Bool.not_eq_true, not_not, ne_eq]
    tauto

/-- C8 witness: an IPA rule on a small document yields the entry built
from the last three components of its single consolidated tuple. -/
theorem entries_from_last_three_and_validity_witness :
    search_triples (fun _ => 0) (fun s => s)
        (SearchPatterns.mk "lang_code" "word" "sounds/N/ipa" [])
        (TreeNode.obj [("lang_code", TreeNode.str "xx"), ("word", TreeNode.str "hi"),
          ("sounds", TreeNode.list [TreeNode.obj [("ipa", TreeNode.str "ha")]])]) true
      = some [("xx", "hi", "ha")] ∧
    (∃ tuples, consolidated_tuples (SearchPatterns.mk "lang_code" "word" "sounds/N/ipa" [])
        (TreeNode.obj [("lang_code", TreeNode.str "xx"), ("word", TreeNode.str "hi"),
          ("sounds", TreeNode.list [TreeNode.obj [("ipa", TreeNode.str "ha")]])])
        = some tuples ∧
      [(("xx", "hi", "ha") : Entry)] = tuples.filterMap (entry_of_tuple (fun _ => 0) (fun s => s) true)) :=
  ⟨rfl, (entries_from_last_three_and_validity (fun _ => 0) (fun s => s)
    (SearchPatterns.mk "lang_code" "word" "sounds/N/ipa" [])
    (TreeNode.obj [("lang_code", TreeNode.str "xx"), ("word", TreeNode.str "hi"),
      ("sounds", TreeNode.list [TreeNode.obj [("ipa", TreeNode.str "ha")]])]) true
    [("xx", "hi", "ha")] rfl).1⟩

end WiktCollect
